import Mathlib

/-!
Shallow embedding of `src/utils/watermark.py` (Fanqie-novel-Downloader).

Text is modelled as `List Char`.  Python's global `random` module is
modelled as an explicit stream state `RNG` threaded through every
function: `random.random()` draws successive rationals in `[0,1)` from
the `floats` stream, while `random.randint` / `random.choice` draw
successive naturals from the `nats` stream (`randint a b` maps a draw
`n` to `a + n % (b - a + 1)`, `choice l` indexes `l` by `n % l.length`).
`time.time()` is modelled by an explicit `now : Nat` parameter, and the
external `hashlib.md5(...).hexdigest()` (out of scope per the spec) by
an explicit `digestHex : List Char` parameter.
-/

namespace Watermark

/-- Python `\s` (Unicode whitespace) restricted to the codepoints Python's
`re` module treats as whitespace; used by the URL pattern `[^\s]+`. -/
def pyIsSpace (c : Char) : Bool :=
  [' ', '\t', '\n', '\r', '\x0b', '\x0c',
   '\x1c', '\x1d', '\x1e', '\x1f', '\x85', '\xa0',
   '\u1680', '\u2000', '\u2001', '\u2002', '\u2003', '\u2004', '\u2005',
   '\u2006', '\u2007', '\u2008', '\u2009', '\u200A',
   '\u2028', '\u2029', '\u202F', '\u205F', '\u3000'].contains c

/-- Python `str.isalnum` restricted to ASCII letters and digits (the wider
Unicode categories are irrelevant to every claim proved below; invisible
codepoints are not alphanumeric in Python, matching this predicate). -/
def pyIsAlnum (c : Char) : Bool := c.isAlphanum

/-- `ENHANCED_INVISIBLE_CHARS` from the source. -/
def ENHANCED_INVISIBLE_CHARS : List Char :=
  ['\u200B', '\u200C', '\u200D', '\uFEFF', '\u2060', '\u180E']

/-- `INVISIBLE_CHARS` from the source (legacy list). -/
def INVISIBLE_CHARS : List Char :=
  ['\u200B', '\u200C', '\u200D', '\uFEFF']

/-- `URL_SAFE_INVISIBLE_CHARS` from the source. -/
def URL_SAFE_INVISIBLE_CHARS : List Char :=
  ['\u200B', '\u200C', '\u200D', '\u2060']

/-- A codepoint belongs to some invisible alphabet.  `ENHANCED_INVISIBLE_CHARS`
is a superset of every alphabet used by the module (legacy, url-safe,
fingerprint table, timestamp separator). -/
def isInvisibleChar (c : Char) : Bool := ENHANCED_INVISIBLE_CHARS.contains c

/-- Remove every codepoint belonging to any invisible alphabet. -/
def stripInvisible (l : List Char) : List Char :=
  l.filter (fun c => !(isInvisibleChar c))

/-- The state of Python's global `random` generator, as two draw streams
with cursors. -/
structure RNG where
  floats : Nat → ℚ
  nats : Nat → Nat
  fi : Nat
  ni : Nat

/-- `random.random()`: draw the next float. -/
def nextFloat (g : RNG) : ℚ × RNG :=
  (g.floats g.fi, ⟨g.floats, g.nats, g.fi + 1, g.ni⟩)

/-- Draw the next natural from the integer stream. -/
def nextNat (g : RNG) : Nat × RNG :=
  (g.nats g.ni, ⟨g.floats, g.nats, g.fi, g.ni + 1⟩)

/-- `random.randint(a, b)`: uniform on `[a, b]` inclusive, modelled as
`a + n % (b - a + 1)` on the next integer draw. -/
def randint (a b : Nat) (g : RNG) : Nat × RNG :=
  let p := nextNat g
  (a + p.1 % (b + 1 - a), p.2)

/-- `random.choice(l)`: index `l` by the next integer draw mod its length. -/
def choice (l : List Char) (g : RNG) : Char × RNG :=
  let p := nextNat g
  (l.getD (p.1 % l.length) '\u200B', p.2)

/-- `n` successive `random.choice(ENHANCED_INVISIBLE_CHARS)` draws. -/
def choices : Nat → RNG → List Char × RNG
  | 0, g => ([], g)
  | n + 1, g =>
    let p := choice ENHANCED_INVISIBLE_CHARS g
    let rest := choices n p.2
    (p.1 :: rest.1, rest.2)

/-- `generate_random_invisible_sequence(min_len, max_len)` from the source:
a `randint` length followed by that many `choice` draws. -/
def generate_random_invisible_sequence (lo hi : Nat) (g : RNG) : List Char × RNG :=
  let L := randint lo hi g
  choices L.1 L.2

/-- The `insertion_rate` computation inside `_add_invisible_chars_to_segment`:
default 0.4, overridden to 0.6 for `/.:-`, 0.3 for ASCII vowels, 0.4 for
digits (coinciding with the default). -/
def insertionRate (c : Char) : ℚ :=
  if c ∈ ['/', '.', ':', '-'] then 6/10
  else if c ∈ ['a', 'e', 'i', 'o', 'u', 'A', 'E', 'I', 'O', 'U'] then 3/10
  else if c.isDigit then 4/10
  else 4/10

/-- `_add_invisible_chars_to_segment(text)` from the source: keep each
character; with probability `insertionRate c` append `randint(1,2)`
independently chosen `ENHANCED_INVISIBLE_CHARS` codepoints. -/
def add_invisible_chars_to_segment : List Char → RNG → List Char × RNG
  | [], g => ([], g)
  | c :: rest, g =>
    let x := nextFloat g
    if x.1 < insertionRate c then
      let n := randint 1 2 x.2
      let ins := choices n.1 n.2
      let out := add_invisible_chars_to_segment rest ins.2
      (c :: (ins.1 ++ out.1), out.2)
    else
      let out := add_invisible_chars_to_segment rest x.2
      (c :: out.1, out.2)

/-- Try to match the regex `https?://[^\s]+` anchored at the head of `s`,
for a given scheme literal `pre` (`http://` or `https://`): on success
return the matched characters and the remainder. -/
def matchUrlWith (pre s : List Char) : Option (List Char × List Char) :=
  if pre.isPrefixOf s then
    let rest := s.drop pre.length
    let body := rest.takeWhile (fun c => !(pyIsSpace c))
    if body = [] then none
    else some (pre ++ body, rest.drop body.length)
  else none

/-- `URL_PATTERN` matched at the head of `s`; the greedy `s?` tries the
`https` scheme first. -/
def matchUrlAt (s : List Char) : Option (List Char × List Char) :=
  match matchUrlWith ['h', 't', 't', 'p', 's', ':', '/', '/'] s with
  | some r => some r
  | none => matchUrlWith ['h', 't', 't', 'p', ':', '/', '/'] s

/-- Leftmost `URL_PATTERN` match: returns `(before, match, after)` for the
first position admitting a match, scanning left to right. -/
def findUrl : List Char → Option (List Char × List Char × List Char)
  | [] => none
  | c :: rest =>
    match matchUrlAt (c :: rest) with
    | some (m, a) => some ([], m, a)
    | none =>
      match findUrl rest with
      | some (p, m, a) => some (c :: p, m, a)
      | none => none

/-- A segment of the input, as produced by scanning `URL_PATTERN.finditer`:
either a free (prose) span or a protected URL span. -/
inductive Span where
  | free : List Char → Span
  | url : List Char → Span
deriving DecidableEq

/-- The characters a span covers. -/
def Span.content : Span → List Char
  | .free t => t
  | .url t => t

/-- Fuel-driven worker for `segmentText` (each URL match consumes at
least one character, so fuel `s.length` always suffices; the fuel-zero
fallback is unreachable from `segmentText` on nonempty input). -/
def segmentTextGo : Nat → List Char → List Span
  | 0, s => if s = [] then [] else [Span.free s]
  | fuel + 1, s =>
    match findUrl s with
    | none => if s = [] then [] else [Span.free s]
    | some (p, m, a) =>
      (if p = [] then [] else [Span.free p]) ++ Span.url m :: segmentTextGo fuel a

/-- URL-aware segmentation of the input, as driven by
`URL_PATTERN.finditer` in `add_enhanced_invisible_chars`: the text before
each match becomes a free span when nonempty, each match a url span, and
the tail after the last match a final free span when nonempty. -/
def segmentText (s : List Char) : List Span :=
  segmentTextGo s.length s

/-- The per-segment processing loop of `add_enhanced_invisible_chars`:
free spans go through `_add_invisible_chars_to_segment`, url spans are
appended verbatim (`match.group(0)`). -/
def embedSpans : List Span → RNG → List Char × RNG
  | [], g => ([], g)
  | .free t :: rest, g =>
    let t' := add_invisible_chars_to_segment t g
    let r' := embedSpans rest t'.2
    (t'.1 ++ r'.1, r'.2)
  | .url m :: rest, g =>
    let r' := embedSpans rest g
    (m ++ r'.1, r'.2)

/-- `add_enhanced_invisible_chars(text)` from the source: segment around
URLs and embed invisible characters only into the free segments.  (The
empty-input guard and the empty-segments guard of the source are
subsumed: `segmentText [] = []`, and a nonempty input always yields at
least one span.) -/
def add_enhanced_invisible_chars (s : List Char) (g : RNG) : List Char × RNG :=
  embedSpans (segmentText s) g

/-- `add_zero_width_to_url(url, insertion_rate)` from the source: between
two consecutive alphanumeric characters, insert one `URL_SAFE_INVISIBLE_CHARS`
codepoint with probability `rate`. -/
def add_zero_width_to_url (rate : ℚ) : List Char → RNG → List Char × RNG
  | [], g => ([], g)
  | [c], g => ([c], g)
  | c :: next :: rest, g =>
    if pyIsAlnum c && pyIsAlnum next then
      let x := nextFloat g
      if x.1 < rate then
        let z := choice URL_SAFE_INVISIBLE_CHARS x.2
        let out := add_zero_width_to_url rate (next :: rest) z.2
        (c :: z.1 :: out.1, out.2)
      else
        let out := add_zero_width_to_url rate (next :: rest) x.2
        (c :: out.1, out.2)
    else
      let out := add_zero_width_to_url rate (next :: rest) g
      (c :: out.1, out.2)

/-- The `char_map` dict literal of `embed_content_fingerprint`: 16 entries
mapping each hex digit to 1 or 2 invisible codepoints. -/
def char_map : List (Char × List Char) :=
  [('0', ['\u200B']), ('1', ['\u200C']), ('2', ['\u200D']), ('3', ['\u2060']),
   ('4', ['\uFEFF']), ('5', ['\u180E']), ('6', ['\u200B', '\u200C']),
   ('7', ['\u200B', '\u200D']),
   ('8', ['\u200C', '\u200D']), ('9', ['\u200D', '\u200C']),
   ('a', ['\u200B', '\u2060']), ('b', ['\u200C', '\u2060']),
   ('c', ['\u200D', '\u2060']), ('d', ['\u200B', '\u180E']),
   ('e', ['\u200C', '\u180E']), ('f', ['\u200D', '\u180E'])]

/-- Python's `char_map.get(c, '\u200B')`. -/
def charMapLookup (c : Char) : List Char :=
  (char_map.lookup c).getD ['\u200B']

/-- `embed_content_fingerprint(content)` from the source, with the
external `hashlib.md5(content.encode()).hexdigest()` passed in as
`digestHex` (the digest algorithm is out of scope per the spec): take the
first 8 hex characters and map each through `char_map`. -/
def embed_content_fingerprint (digestHex : List Char) : List Char :=
  ((digestHex.take 8).map charMapLookup).flatten

/-- Fuel-driven worker for `decDigits`; fuel `n` always suffices since a
positive `n` has at most `n` decimal digits. -/
def decDigitsGo : Nat → Nat → List Nat
  | 0, _ => []
  | fuel + 1, n => if n = 0 then [] else decDigitsGo fuel (n / 10) ++ [n % 10]

/-- The decimal digit values of Python's `str(n)` (most significant
first); `str(0)` is `"0"`. -/
def decDigits (n : Nat) : List Nat :=
  if n = 0 then [0] else decDigitsGo n n

/-- Python's `l[-k:]` slice on a list. -/
def lastN (k : Nat) (l : List Nat) : List Nat := l.drop (l.length - k)

/-- The per-digit group built by the loop of `add_timestamp_watermark`:
the `ENHANCED_INVISIBLE_CHARS` entry at index `d % len` repeated
`d % 3 + 1` times, then the `'\u200C'` separator. -/
def tsGroup (d : Nat) : List Char :=
  List.replicate (d % 3 + 1)
    (ENHANCED_INVISIBLE_CHARS.getD (d % ENHANCED_INVISIBLE_CHARS.length) '\u200B')
    ++ ['\u200C']

/-- `add_timestamp_watermark()` from the source, with `time.time()`
passed in as `now`: encode `str(int(now))[-6:]` digit by digit. -/
def add_timestamp_watermark (now : Nat) : List Char :=
  ((lastN 6 (decDigits now)).map tsGroup).flatten

/-- `apply_multi_layer_protection(text, content)` from the source, with
the digest of `content` passed as `digestHex` and `time.time()` as `now`:
embed the body, wrap it in two random fillers, and prepend the
fingerprint and timestamp codes. -/
def apply_multi_layer_protection (text digestHex : List Char) (now : Nat)
    (g : RNG) : List Char × RNG :=
  let body := add_enhanced_invisible_chars text g
  let pfx := generate_random_invisible_sequence 2 5 body.2
  let sfx := generate_random_invisible_sequence 2 5 pfx.2
  let fingerprint := embed_content_fingerprint digestHex
  let timestamp := add_timestamp_watermark now
  (fingerprint ++ timestamp ++ (pfx.1 ++ body.1 ++ sfx.1), sfx.2)

/-- `add_invisible_chars_to_text(text, insertion_rate)` from the source
(legacy): after each character, with probability `rate`, insert one
`INVISIBLE_CHARS` codepoint. -/
def add_invisible_chars_to_text (rate : ℚ) : List Char → RNG → List Char × RNG
  | [], g => ([], g)
  | c :: rest, g =>
    let x := nextFloat g
    if x.1 < rate then
      let z := choice INVISIBLE_CHARS x.2
      let out := add_invisible_chars_to_text rate rest z.2
      (c :: z.1 :: out.1, out.2)
    else
      let out := add_invisible_chars_to_text rate rest x.2
      (c :: out.1, out.2)

/-- `insert_watermark(content, watermark_text, num_insertions)` from the
source: deprecated, returns its first argument unchanged. -/
def insert_watermark (content : List Char) (watermark_text : Option (List Char))
    (num_insertions : Option Nat) : List Char :=
  content

/-- `apply_watermark_to_chapter(content)` from the source: returns its
argument unchanged. -/
def apply_watermark_to_chapter (content : List Char) : List Char :=
  content

/-! ### Embedding relations -/

/-- Relational characterization of the Free-Span Embedder: every input
character is kept in order, each followed by at most two codepoints of
the general alphabet. -/
inductive FreeEmbeds : List Char → List Char → Prop where
  | nil : FreeEmbeds [] []
  | cons (c : Char) (ins s out : List Char) :
      (∀ x ∈ ins, x ∈ ENHANCED_INVISIBLE_CHARS) → ins.length ≤ 2 →
      FreeEmbeds s out → FreeEmbeds (c :: s) (c :: (ins ++ out))

/-- Relational characterization of the URL-Span Embedder: at most one
url-safe codepoint may be inserted between two consecutive characters,
and only when both are alphanumeric. -/
inductive UrlEmbeds : List Char → List Char → Prop where
  | nil : UrlEmbeds [] []
  | single (c : Char) : UrlEmbeds [c] [c]
  | cons_ins (c next : Char) (rest out : List Char) (z : Char) :
      pyIsAlnum c = true → pyIsAlnum next = true →
      z ∈ URL_SAFE_INVISIBLE_CHARS →
      UrlEmbeds (next :: rest) out →
      UrlEmbeds (c :: next :: rest) (c :: z :: out)
  | cons_keep (c next : Char) (rest out : List Char) :
      UrlEmbeds (next :: rest) out →
      UrlEmbeds (c :: next :: rest) (c :: out)

/-- Per-span characterization of the default pipeline: URL spans are
emitted verbatim, free spans through the Free-Span Embedder. -/
inductive SpanEmbeds : Span → List Char → Prop where
  | url (m : List Char) : SpanEmbeds (Span.url m) m
  | free (t out : List Char) : FreeEmbeds t out → SpanEmbeds (Span.free t) out

/-! ### Theorems -/

theorem drop_takeWhile_length (p : Char → Bool) (l : List Char) :
    l.drop (l.takeWhile p).length = l.dropWhile p := by
  induction l with
  | nil => rfl
  | cons c t ih =>
    by_cases h : p c
    · simp [List.takeWhile_cons, List.dropWhile_cons, h, ih]
    · simp [List.takeWhile_cons, List.dropWhile_cons, h]

theorem matchUrlWith_spec {pre s m a : List Char}
    (h : matchUrlWith pre s = some (m, a)) : s = m ++ a ∧ m ≠ [] := by
  unfold matchUrlWith at h
  by_cases hp : pre.isPrefixOf s
  · rw [if_pos hp] at h
    by_cases hb : (s.drop pre.length).takeWhile (fun c => !(pyIsSpace c)) = []
    · simp only [hb, if_pos] at h
      exact absurd h (by simp)
    · rw [if_neg hb, Option.some.injEq, Prod.mk.injEq] at h
      obtain ⟨hm, ha⟩ := h
      subst hm
      subst ha
      refine ⟨?_, ?_⟩
      · rw [drop_takeWhile_length, List.append_assoc,
          List.takeWhile_append_dropWhile]
        obtain ⟨t, ht⟩ := List.isPrefixOf_iff_prefix.1 hp
        rw [← ht]
        simp
      · intro hnil
        exact hb ((List.append_eq_nil.1 hnil).2)
  · rw [if_neg hp] at h
    exact absurd h (by simp)

theorem matchUrlAt_spec {s m a : List Char}
    (h : matchUrlAt s = some (m, a)) : s = m ++ a ∧ m ≠ [] := by
  unfold matchUrlAt at h
  cases hh : matchUrlWith ['h', 't', 't', 'p', 's', ':', '/', '/'] s with
  | some r =>
    rw [hh] at h
    cases r with
    | mk rm ra =>
      rw [Option.some.injEq, Prod.mk.injEq] at h
      obtain ⟨h1, h2⟩ := h
      subst h1
      subst h2
      exact matchUrlWith_spec hh
  | none =>
    rw [hh] at h
    exact matchUrlWith_spec h

theorem findUrl_spec {s p m a : List Char}
    (h : findUrl s = some (p, m, a)) : s = p ++ m ++ a ∧ m ≠ [] := by
  induction s generalizing p m a with
  | nil => exact absurd h (by simp [findUrl])
  | cons c rest ih =>
    unfold findUrl at h
    cases hm : matchUrlAt (c :: rest) with
    | some r =>
      cases r with
      | mk rm ra =>
        rw [hm] at h
        rw [Option.some.injEq, Prod.mk.injEq, Prod.mk.injEq] at h
        obtain ⟨h1, h2, h3⟩ := h
        subst h1
        subst h2
        subst h3
        obtain ⟨hs, hne⟩ := matchUrlAt_spec hm
        exact ⟨by simpa using hs, hne⟩
    | none =>
      rw [hm] at h
      cases hf : findUrl rest with
      | some r =>
        obtain ⟨rp, rm, ra⟩ := r
        rw [hf] at h
        rw [Option.some.injEq, Prod.mk.injEq, Prod.mk.injEq] at h
        obtain ⟨h1, h2, h3⟩ := h
        subst h1
        subst h2
        subst h3
        obtain ⟨hs, hne⟩ := ih hf
        exact ⟨by simp [hs], hne⟩
      | none =>
        rw [hf] at h
        exact absurd h (by simp)

theorem findUrl_after_length {s p m a : List Char}
    (h : findUrl s = some (p, m, a)) : a.length < s.length := by
  obtain ⟨hs, hne⟩ := findUrl_spec h
  have : 0 < m.length := List.length_pos.2 hne
  rw [hs]
  simp only [List.length_append]
  omega

@[simp]
theorem Span.content_free (t : List Char) : (Span.free t).content = t := rfl

@[simp]
theorem Span.content_url (t : List Char) : (Span.url t).content = t := rfl

theorem segmentTextGo_nil (fuel : Nat) : segmentTextGo fuel [] = [] := by
  cases fuel with
  | zero => rfl
  | succ k => rfl

theorem segmentTextGo_irrel :
    ∀ (f₁ : Nat) (s : List Char) (f₂ : Nat), s.length ≤ f₁ → s.length ≤ f₂ →
      segmentTextGo f₁ s = segmentTextGo f₂ s := by
  intro f₁
  induction f₁ with
  | zero =>
    intro s f₂ h1 _
    have : s = [] := List.eq_nil_of_length_eq_zero (Nat.le_zero.1 h1)
    subst this
    rw [segmentTextGo_nil, segmentTextGo_nil]
  | succ k ih =>
    intro s f₂ h1 h2
    cases f₂ with
    | zero =>
      have : s = [] := List.eq_nil_of_length_eq_zero (Nat.le_zero.1 h2)
      subst this
      rw [segmentTextGo_nil, segmentTextGo_nil]
    | succ k₂ =>
      show (match findUrl s with
        | none => if s = [] then [] else [Span.free s]
        | some (p, m, a) =>
          (if p = [] then [] else [Span.free p]) ++
            Span.url m :: segmentTextGo k a) =
        (match findUrl s with
        | none => if s = [] then [] else [Span.free s]
        | some (p, m, a) =>
          (if p = [] then [] else [Span.free p]) ++
            Span.url m :: segmentTextGo k₂ a)
      cases hf : findUrl s with
      | none => rfl
      | some r =>
        obtain ⟨p, m, a⟩ := r
        have hlt : a.length < s.length := findUrl_after_length hf
        change (if p = [] then [] else [Span.free p]) ++
            Span.url m :: segmentTextGo k a =
          (if p = [] then [] else [Span.free p]) ++
            Span.url m :: segmentTextGo k₂ a
        rw [ih a k₂ (by omega) (by omega)]

theorem segmentText_none {s : List Char} (h : findUrl s = none) :
    segmentText s = if s = [] then [] else [Span.free s] := by
  unfold segmentText
  cases hl : s.length with
  | zero =>
    have : s = [] := List.eq_nil_of_length_eq_zero hl
    subst this
    rfl
  | succ k =>
    show (match findUrl s with
      | none => if s = [] then [] else [Span.free s]
      | some (p, m, a) =>
        (if p = [] then [] else [Span.free p]) ++
          Span.url m :: segmentTextGo k a) =
      if s = [] then [] else [Span.free s]
    rw [h]

theorem segmentText_some {s p m a : List Char} (h : findUrl s = some (p, m, a)) :
    segmentText s =
      (if p = [] then [] else [Span.free p]) ++ Span.url m :: segmentText a := by
  unfold segmentText
  cases hl : s.length with
  | zero =>
    have : s = [] := List.eq_nil_of_length_eq_zero hl
    subst this
    simp [findUrl] at h
  | succ k =>
    show (match findUrl s with
      | none => if s = [] then [] else [Span.free s]
      | some (p, m, a) =>
        (if p = [] then [] else [Span.free p]) ++
          Span.url m :: segmentTextGo k a) = _
    rw [h]
    have hlt : a.length < s.length := findUrl_after_length h
    change (if p = [] then [] else [Span.free p]) ++
        Span.url m :: segmentTextGo k a = _
    rw [segmentTextGo_irrel k a a.length (by omega) (by omega)]

theorem isInvisibleChar_iff {c : Char} :
    isInvisibleChar c = true ↔ c ∈ ENHANCED_INVISIBLE_CHARS := by
  simp [isInvisibleChar, List.contains, List.elem_iff]

theorem choice_mem {l : List Char} (hl : l ≠ []) (g : RNG) :
    (choice l g).1 ∈ l := by
  have hlen : 0 < l.length := List.length_pos.2 hl
  have hidx : (nextNat g).1 % l.length < l.length := Nat.mod_lt _ hlen
  simp only [choice]
  rw [List.getD_eq_getElem l _ hidx]
  exact List.getElem_mem hidx

theorem choices_length (n : Nat) (g : RNG) : (choices n g).1.length = n := by
  induction n generalizing g with
  | zero => rfl
  | succ k ih => simp [choices, ih]

theorem choices_mem (n : Nat) (g : RNG) :
    ∀ c ∈ (choices n g).1, c ∈ ENHANCED_INVISIBLE_CHARS := by
  induction n generalizing g with
  | zero => simp [choices]
  | succ k ih =>
    intro c hc
    simp only [choices, List.mem_cons] at hc
    rcases hc with hc | hc
    · subst hc
      exact choice_mem (by simp [ENHANCED_INVISIBLE_CHARS]) g
    · exact ih _ c hc

theorem randint_bounds (a b : Nat) (g : RNG) (hab : a ≤ b) :
    a ≤ (randint a b g).1 ∧ (randint a b g).1 ≤ b := by
  simp only [randint]
  constructor
  · omega
  · have : (nextNat g).1 % (b + 1 - a) < b + 1 - a := Nat.mod_lt _ (by omega)
    omega

theorem filler_spec (g : RNG) :
    2 ≤ (generate_random_invisible_sequence 2 5 g).1.length ∧
    (generate_random_invisible_sequence 2 5 g).1.length ≤ 5 ∧
    ∀ c ∈ (generate_random_invisible_sequence 2 5 g).1,
      c ∈ ENHANCED_INVISIBLE_CHARS := by
  obtain ⟨h1, h2⟩ := randint_bounds 2 5 g (by omega)
  unfold generate_random_invisible_sequence
  rw [choices_length]
  exact ⟨h1, h2, choices_mem _ _⟩

theorem stripInvisible_append (l₁ l₂ : List Char) :
    stripInvisible (l₁ ++ l₂) = stripInvisible l₁ ++ stripInvisible l₂ :=
  List.filter_append ..

theorem stripInvisible_eq_nil {l : List Char}
    (h : ∀ c ∈ l, isInvisibleChar c = true) : stripInvisible l = [] := by
  unfold stripInvisible
  rw [List.filter_eq_nil_iff]
  intro a ha
  simp [h a ha]

theorem stripInvisible_eq_self {l : List Char}
    (h : ∀ c ∈ l, ¬ isInvisibleChar c = true) : stripInvisible l = l := by
  unfold stripInvisible
  rw [List.filter_eq_self]
  intro a ha
  simp [h a ha]

theorem stripInvisible_cons_vis {c : Char} {l : List Char}
    (h : ¬ isInvisibleChar c = true) :
    stripInvisible (c :: l) = c :: stripInvisible l := by
  simp [stripInvisible, List.filter_cons, h]

theorem segment_strip {t : List Char} (g : RNG)
    (h : ∀ c ∈ t, ¬ isInvisibleChar c = true) :
    stripInvisible (add_invisible_chars_to_segment t g).1 = t := by
  induction t generalizing g with
  | nil => rfl
  | cons c rest ih =>
    have hc : ¬ isInvisibleChar c = true := h c (by simp)
    have hrest : ∀ x ∈ rest, ¬ isInvisibleChar x = true :=
      fun x hx => h x (by simp [hx])
    unfold add_invisible_chars_to_segment
    by_cases hf : (nextFloat g).1 < insertionRate c
    · rw [if_pos hf]
      simp only
      rw [stripInvisible_cons_vis hc, stripInvisible_append,
        stripInvisible_eq_nil (fun x hx =>
          isInvisibleChar_iff.2 (choices_mem _ _ x hx)),
        List.nil_append, ih _ hrest]
    · rw [if_neg hf]
      simp only
      rw [stripInvisible_cons_vis hc, ih _ hrest]

theorem charMapLookup_spec (c : Char) :
    1 ≤ (charMapLookup c).length ∧ (charMapLookup c).length ≤ 2 ∧
    ∀ x ∈ charMapLookup c, isInvisibleChar x = true := by
  unfold charMapLookup char_map
  simp only [List.lookup]
  repeat' split
  all_goals decide

theorem fingerprint_invisible (d : List Char) :
    ∀ x ∈ embed_content_fingerprint d, isInvisibleChar x = true := by
  intro x hx
  unfold embed_content_fingerprint at hx
  rw [List.mem_flatten] at hx
  obtain ⟨l, hl, hxl⟩ := hx
  rw [List.mem_map] at hl
  obtain ⟨c, _, hcl⟩ := hl
  subst hcl
  exact (charMapLookup_spec c).2.2 x hxl

theorem tsGroup_invisible (d : Nat) :
    ∀ x ∈ tsGroup d, isInvisibleChar x = true := by
  intro x hx
  unfold tsGroup at hx
  rw [List.mem_append] at hx
  rcases hx with hx | hx
  · rw [List.eq_of_mem_replicate hx]
    have hidx : d % ENHANCED_INVISIBLE_CHARS.length <
        ENHANCED_INVISIBLE_CHARS.length := Nat.mod_lt _ (by decide)
    rw [List.getD_eq_getElem _ _ hidx]
    exact isInvisibleChar_iff.2 (List.getElem_mem hidx)
  · rw [List.mem_singleton] at hx
    subst hx
    decide

theorem timestamp_invisible (now : Nat) :
    ∀ x ∈ add_timestamp_watermark now, isInvisibleChar x = true := by
  intro x hx
  unfold add_timestamp_watermark at hx
  rw [List.mem_flatten] at hx
  obtain ⟨l, hl, hxl⟩ := hx
  rw [List.mem_map] at hl
  obtain ⟨d, _, hdl⟩ := hl
  subst hdl
  exact tsGroup_invisible d x hxl

theorem decDigitsGo_eq (f : Nat) :
    ∀ n, n < 10 ^ f → decDigitsGo f n = (Nat.digits 10 n).reverse := by
  induction f with
  | zero =>
    intro n h
    have : n = 0 := by simpa using h
    subst this
    simp [decDigitsGo]
  | succ k ih =>
    intro n h
    by_cases hn : n = 0
    · subst hn
      simp [decDigitsGo]
    · show (if n = 0 then [] else decDigitsGo k (n / 10) ++ [n % 10]) = _
      rw [if_neg hn]
      have hdiv : n / 10 < 10 ^ k := by
        rw [Nat.div_lt_iff_lt_mul (by norm_num)]
        calc n < 10 ^ (k + 1) := h
        _ = 10 ^ k * 10 := by ring
      rw [ih (n / 10) hdiv,
        Nat.digits_def' (by norm_num : (1 : Nat) < 10) (Nat.pos_of_ne_zero hn)]
      simp

theorem decDigits_eq_digits {n : Nat} (hn : n ≠ 0) :
    decDigits n = (Nat.digits 10 n).reverse := by
  unfold decDigits
  rw [if_neg hn]
  exact decDigitsGo_eq n n (Nat.lt_pow_self (by norm_num) n)

theorem segment_join (s : List Char) :
    ((segmentText s).map Span.content).flatten = s := by
  have main : ∀ (n : Nat) (t : List Char), t.length ≤ n →
      ((segmentText t).map Span.content).flatten = t := by
    intro n
    induction n with
    | zero =>
      intro t ht
      have : t = [] := List.eq_nil_of_length_eq_zero (Nat.le_zero.1 ht)
      subst this
      rfl
    | succ k ih =>
      intro t ht
      cases hf : findUrl t with
      | none =>
        rw [segmentText_none hf]
        by_cases hnil : t = []
        · subst hnil
          simp
        · rw [if_neg hnil]
          simp [Span.content]
      | some r =>
        obtain ⟨p, m, a⟩ := r
        rw [segmentText_some hf]
        have hlt : a.length < t.length := findUrl_after_length hf
        have ha := ih a (by omega)
        obtain ⟨hs, -⟩ := findUrl_spec hf
        by_cases hp : p = []
        · subst hp
          rw [if_pos rfl]
          simp only [List.nil_append, List.map_cons, List.flatten_cons,
            Span.content_url]
          rw [ha]
          simpa using hs.symm
        · rw [if_neg hp]
          simp only [List.map_append, List.map_cons, List.map_nil,
            List.flatten_append, List.flatten_cons, List.flatten_nil,
            Span.content_url, Span.content_free]
          rw [ha]
          simp [hs, List.append_assoc]
  exact main s.length s (le_refl _)

theorem span_chars_mem {s : List Char} {sp : Span} (hsp : sp ∈ segmentText s) :
    ∀ c ∈ sp.content, c ∈ s := by
  intro c hc
  rw [← segment_join s]
  rw [List.mem_flatten]
  exact ⟨sp.content, List.mem_map_of_mem _ hsp, hc⟩

theorem embedSpans_strip {spans : List Span} (g : RNG)
    (h : ∀ sp ∈ spans, ∀ c ∈ sp.content, ¬ isInvisibleChar c = true) :
    stripInvisible (embedSpans spans g).1 = (spans.map Span.content).flatten := by
  induction spans generalizing g with
  | nil => rfl
  | cons sp rest ih =>
    have hrest : ∀ sp ∈ rest, ∀ c ∈ sp.content, ¬ isInvisibleChar c = true :=
      fun x hx => h x (by simp [hx])
    cases sp with
    | free t =>
      have ht : ∀ c ∈ t, ¬ isInvisibleChar c = true := by
        have := h (Span.free t) (by simp)
        simpa using this
      simp only [embedSpans, List.map_cons, List.flatten_cons, Span.content_free]
      rw [stripInvisible_append, segment_strip _ ht, ih _ hrest]
    | url m =>
      have hm : ∀ c ∈ m, ¬ isInvisibleChar c = true := by
        have := h (Span.url m) (by simp)
        simpa using this
      simp only [embedSpans, List.map_cons, List.flatten_cons, Span.content_url]
      rw [stripInvisible_append, stripInvisible_eq_self hm, ih _ hrest]

theorem freeEmbeds_segment (t : List Char) (g : RNG) :
    FreeEmbeds t (add_invisible_chars_to_segment t g).1 := by
  induction t generalizing g with
  | nil => exact FreeEmbeds.nil
  | cons c rest ih =>
    unfold add_invisible_chars_to_segment
    by_cases hf : (nextFloat g).1 < insertionRate c
    · rw [if_pos hf]
      refine FreeEmbeds.cons c _ rest _ (choices_mem _ _) ?_ (ih _)
      rw [choices_length]
      have := randint_bounds 1 2 (nextFloat g).2 (by omega)
      omega
    · rw [if_neg hf]
      exact FreeEmbeds.cons c [] rest _ (by simp) (by simp) (ih _)

/-- **C1**: for every input text containing no invisible-alphabet
codepoints of its own, removing every codepoint of any invisible alphabet
from the output of the full pipeline `apply_multi_layer_protection`
(`protect`) yields the original input text: no visible character is
added, removed, or reordered. -/
theorem protect_visibility_invariant (text digestHex : List Char) (now : Nat)
    (g : RNG) (h : ∀ c ∈ text, ¬ isInvisibleChar c = true) :
    stripInvisible ((apply_multi_layer_protection text digestHex now g).1) =
      text := by
  have hspans : ∀ sp ∈ segmentText text, ∀ c ∈ sp.content,
      ¬ isInvisibleChar c = true :=
    fun sp hsp c hc => h c (span_chars_mem hsp c hc)
  have hf1 : ∀ c ∈ (generate_random_invisible_sequence 2 5
      (add_enhanced_invisible_chars text g).2).1, isInvisibleChar c = true :=
    fun c hc => isInvisibleChar_iff.2 ((filler_spec _).2.2 c hc)
  have hf2 : ∀ c ∈ (generate_random_invisible_sequence 2 5
      (generate_random_invisible_sequence 2 5
        (add_enhanced_invisible_chars text g).2).2).1,
      isInvisibleChar c = true :=
    fun c hc => isInvisibleChar_iff.2 ((filler_spec _).2.2 c hc)
  unfold apply_multi_layer_protection
  simp only
  rw [stripInvisible_append, stripInvisible_append, stripInvisible_append,
    stripInvisible_append,
    stripInvisible_eq_nil (fingerprint_invisible digestHex),
    stripInvisible_eq_nil (timestamp_invisible now),
    stripInvisible_eq_nil hf1, stripInvisible_eq_nil hf2]
  unfold add_enhanced_invisible_chars
  rw [embedSpans_strip g hspans, segment_join]
  simp

/-- Witness for C1 at a concrete input containing a URL, with a concrete
digest, time and random stream. -/
theorem protect_visibility_invariant_witness :
    (∀ c ∈ ("go https://e.co now").toList, ¬ isInvisibleChar c = true) ∧
    stripInvisible ((apply_multi_layer_protection ("go https://e.co now").toList
      ("5d41402a").toList 1700000000
      (RNG.mk (fun _ => 0) (fun _ => 0) 0 0)).1) =
      ("go https://e.co now").toList :=
  ⟨by decide,
   protect_visibility_invariant _ _ _ _ (by decide)⟩

/-- **C2 is false on the code**: `apply_multi_layer_protection` has no
empty-input guard, so `protect("", content)` still emits fingerprint,
timestamp and filler codepoints; here a concrete run on empty text
returns a nonempty string. -/
theorem protect_empty_counterexample :
    (apply_multi_layer_protection []
      ['5', 'd', '4', '1', '4', '0', '2', 'a'] 1700000000
      (RNG.mk (fun _ => 0) (fun _ => 0) 0 0)).1 ≠ ([] : List Char) := by
  decide

/-- **C2 (amended)**: on empty text the body embedder
(`add_enhanced_invisible_chars`) and the segmenter do short-circuit to
empty output, but `apply_multi_layer_protection` still returns a
nonempty, purely invisible string (fingerprint ++ timestamp ++ two
fillers around the empty body). -/
theorem protect_empty_characterization (digestHex : List Char) (now : Nat)
    (g : RNG) :
    add_enhanced_invisible_chars [] g = ([], g) ∧
    segmentText [] = [] ∧
    (apply_multi_layer_protection [] digestHex now g).1 ≠ [] ∧
    ∀ c ∈ (apply_multi_layer_protection [] digestHex now g).1,
      isInvisibleChar c = true := by
  refine ⟨rfl, rfl, ?_, ?_⟩
  · intro hcon
    unfold apply_multi_layer_protection at hcon
    simp only [List.append_eq_nil] at hcon
    have h2 := (filler_spec (add_enhanced_invisible_chars [] g).2).1
    rw [hcon.2.1.1] at h2
    simp at h2
  · intro c hc
    unfold apply_multi_layer_protection at hc
    simp only [List.mem_append] at hc
    rcases hc with ((hc | hc) | (hc | hc) | hc)
    · exact fingerprint_invisible _ c hc
    · exact timestamp_invisible _ c hc
    · exact isInvisibleChar_iff.2 ((filler_spec _).2.2 c hc)
    · simp [add_enhanced_invisible_chars, embedSpans, segmentText,
        segmentTextGo] at hc
    · exact isInvisibleChar_iff.2 ((filler_spec _).2.2 c hc)

/-- Witness for the amended C2 at concrete inputs. -/
theorem protect_empty_characterization_witness :
    (apply_multi_layer_protection [] ['a'] 123456
      (RNG.mk (fun _ => 0) (fun _ => 0) 0 0)).1 ≠ [] ∧
    isInvisibleChar '\u200B' = true :=
  ⟨(protect_empty_characterization ['a'] 123456
      (RNG.mk (fun _ => 0) (fun _ => 0) 0 0)).2.2.1,
   (protect_empty_characterization ['a'] 123456
      (RNG.mk (fun _ => 0) (fun _ => 0) 0 0)).2.2.2 '\u200B' (by decide)⟩

/-- **C3**: the pipeline output is exactly
`fingerprint ++ timestamp ++ filler₁ ++ body ++ filler₂`, where `body` is
the embedded text and each filler independently has length in `[2, 5]`
and consists only of general-alphabet codepoints. -/
theorem protect_layering (text digestHex : List Char) (now : Nat) (g : RNG) :
    ∃ f₁ f₂ : List Char,
      (apply_multi_layer_protection text digestHex now g).1 =
        embed_content_fingerprint digestHex ++ add_timestamp_watermark now ++
          f₁ ++ (add_enhanced_invisible_chars text g).1 ++ f₂ ∧
      2 ≤ f₁.length ∧ f₁.length ≤ 5 ∧
      (∀ c ∈ f₁, c ∈ ENHANCED_INVISIBLE_CHARS) ∧
      2 ≤ f₂.length ∧ f₂.length ≤ 5 ∧
      (∀ c ∈ f₂, c ∈ ENHANCED_INVISIBLE_CHARS) := by
  refine ⟨(generate_random_invisible_sequence 2 5
      (add_enhanced_invisible_chars text g).2).1,
    (generate_random_invisible_sequence 2 5
      (generate_random_invisible_sequence 2 5
        (add_enhanced_invisible_chars text g).2).2).1,
    ?_, (filler_spec _).1, (filler_spec _).2.1, (filler_spec _).2.2,
    (filler_spec _).1, (filler_spec _).2.1, (filler_spec _).2.2⟩
  unfold apply_multi_layer_protection
  simp [List.append_assoc]

theorem stripInvisible_cons_invis {c : Char} {l : List Char}
    (h : isInvisibleChar c = true) :
    stripInvisible (c :: l) = stripInvisible l := by
  simp [stripInvisible, List.filter_cons, h]

theorem urlSafe_invisible :
    ∀ z ∈ URL_SAFE_INVISIBLE_CHARS, isInvisibleChar z = true := by
  decide

/-- **C4**: the fingerprint encoder is a pure function of the content
digest; it maps each of the first 8 digest characters through the fixed
16-entry lookup table whose entries each hold 1 or 2 invisible
codepoints, concatenating in digest order. -/
theorem fingerprint_characterization :
    char_map.length = 16 ∧
    (∀ c : Char, 1 ≤ (charMapLookup c).length ∧
      (charMapLookup c).length ≤ 2 ∧
      ∀ x ∈ charMapLookup c, isInvisibleChar x = true) ∧
    (∀ d : List Char, embed_content_fingerprint d =
      ((d.take 8).map charMapLookup).flatten) ∧
    (∀ d₁ d₂ : List Char, d₁ = d₂ →
      embed_content_fingerprint d₁ = embed_content_fingerprint d₂) :=
  ⟨rfl, charMapLookup_spec, fun _ => rfl, fun _ _ h => by rw [h]⟩

/-- Witness for C4 at concrete digest characters. -/
theorem fingerprint_characterization_witness :
    embed_content_fingerprint ['5', 'd'] =
      ((['5', 'd'].take 8).map charMapLookup).flatten ∧
    embed_content_fingerprint ['a'] = embed_content_fingerprint ['a'] ∧
    (∀ x ∈ charMapLookup '5', isInvisibleChar x = true) :=
  ⟨fingerprint_characterization.2.2.1 ['5', 'd'],
   fingerprint_characterization.2.2.2 ['a'] ['a'] rfl,
   (fingerprint_characterization.2.1 '5').2.2⟩

/-- **C5 is false as stated**: for a URL string that already contains an
invisible codepoint, stripping all invisible codepoints from the output
of `add_zero_width_to_url` does not reproduce the input. -/
theorem url_embedder_counterexample :
    stripInvisible ((add_zero_width_to_url (4/10) ['\u200B']
      (RNG.mk (fun _ => 0) (fun _ => 0) 0 0)).1) ≠ ['\u200B'] := by
  decide

/-- **C5 (amended)**: for every URL string containing no invisible
codepoints of its own (and any rate), `add_zero_width_to_url` inserts at
most one url-safe codepoint between two consecutive characters, only
when both are alphanumeric, and stripping all invisible codepoints from
the output reproduces the input exactly. -/
theorem url_embedder_characterization (rate : ℚ) (url : List Char) (g : RNG)
    (h : ∀ c ∈ url, ¬ isInvisibleChar c = true) :
    UrlEmbeds url ((add_zero_width_to_url rate url g).1) ∧
    stripInvisible ((add_zero_width_to_url rate url g).1) = url := by
  induction url generalizing g with
  | nil => exact ⟨UrlEmbeds.nil, rfl⟩
  | cons c rest ih =>
    have hc : ¬ isInvisibleChar c = true := h c (by simp)
    cases rest with
    | nil =>
      exact ⟨UrlEmbeds.single c, stripInvisible_eq_self h⟩
    | cons next rest2 =>
      have hrest : ∀ x ∈ next :: rest2, ¬ isInvisibleChar x = true :=
        fun x hx => h x (by simp [hx])
      unfold add_zero_width_to_url
      by_cases ha : (pyIsAlnum c && pyIsAlnum next) = true
      · rw [if_pos ha]
        have ha' := ha
        rw [Bool.and_eq_true] at ha'
        by_cases hr : (nextFloat g).1 < rate
        · rw [if_pos hr]
          obtain ⟨ih1, ih2⟩ :=
            ih (choice URL_SAFE_INVISIBLE_CHARS (nextFloat g).2).2 hrest
          have hz : (choice URL_SAFE_INVISIBLE_CHARS (nextFloat g).2).1 ∈
              URL_SAFE_INVISIBLE_CHARS :=
            choice_mem (by simp [URL_SAFE_INVISIBLE_CHARS]) _
          refine ⟨UrlEmbeds.cons_ins c next rest2 _ _
            ha'.1 ha'.2 hz ih1, ?_⟩
          rw [stripInvisible_cons_vis hc,
            stripInvisible_cons_invis (urlSafe_invisible _ hz), ih2]
        · rw [if_neg hr]
          obtain ⟨ih1, ih2⟩ := ih (nextFloat g).2 hrest
          exact ⟨UrlEmbeds.cons_keep c next rest2 _ ih1,
            by rw [stripInvisible_cons_vis hc, ih2]⟩
      · rw [if_neg ha]
        obtain ⟨ih1, ih2⟩ := ih g hrest
        exact ⟨UrlEmbeds.cons_keep c next rest2 _ ih1,
          by rw [stripInvisible_cons_vis hc, ih2]⟩

/-- Witness for the amended C5 at a concrete URL and random stream. -/
theorem url_embedder_characterization_witness :
    (∀ c ∈ ['a', 'b'], ¬ isInvisibleChar c = true) ∧
    UrlEmbeds ['a', 'b'] ((add_zero_width_to_url (4/10) ['a', 'b']
      (RNG.mk (fun _ => 0) (fun _ => 0) 0 0)).1) ∧
    stripInvisible ((add_zero_width_to_url (4/10) ['a', 'b']
      (RNG.mk (fun _ => 0) (fun _ => 0) 0 0)).1) = ['a', 'b'] :=
  ⟨by decide,
   (url_embedder_characterization (4/10) ['a', 'b']
     (RNG.mk (fun _ => 0) (fun _ => 0) 0 0) (by decide)).1,
   (url_embedder_characterization (4/10) ['a', 'b']
     (RNG.mk (fun _ => 0) (fun _ => 0) 0 0) (by decide)).2⟩

/-- **C6**: the timestamp encoder takes the 6 least-significant decimal
digits of the time (here `(Nat.digits 10 now).take 6`, reversed to run
left to right) and emits, for each digit `d`, the general-alphabet entry
at index `d mod |alphabet|` repeated `(d mod 3) + 1` times followed by
the fixed `'\u200C'` separator; the output is exactly the concatenation
of these 6 groups. -/
theorem timestamp_encoder_characterization (now : Nat) (h : 100000 ≤ now) :
    add_timestamp_watermark now =
      (((Nat.digits 10 now).take 6).reverse.map tsGroup).flatten ∧
    (((Nat.digits 10 now).take 6).reverse.map tsGroup).length = 6 ∧
    ∀ d : Nat, tsGroup d =
      List.replicate (d % 3 + 1)
        (ENHANCED_INVISIBLE_CHARS.getD (d % ENHANCED_INVISIBLE_CHARS.length)
          '\u200B') ++ ['\u200C'] := by
  have hlen : 6 ≤ (Nat.digits 10 now).length := by
    by_contra hcon
    push_neg at hcon
    have hlt : now < 10 ^ (Nat.digits 10 now).length :=
      Nat.lt_base_pow_length_digits (by norm_num)
    have : now < 10 ^ 5 :=
      lt_of_lt_of_le hlt (Nat.pow_le_pow_right (by norm_num) (by omega))
    omega
  refine ⟨?_, ?_, fun d => rfl⟩
  · have hdec : decDigits now = (Nat.digits 10 now).reverse :=
      decDigits_eq_digits (by omega)
    unfold add_timestamp_watermark lastN
    rw [hdec, List.length_reverse, ← List.reverse_take]
  · simp only [List.length_map, List.length_reverse, List.length_take]
    omega

/-- Witness for C6 at a concrete time. -/
theorem timestamp_encoder_characterization_witness :
    add_timestamp_watermark 1747000000 =
      (((Nat.digits 10 1747000000).take 6).reverse.map tsGroup).flatten ∧
    (((Nat.digits 10 1747000000).take 6).reverse.map tsGroup).length = 6 ∧
    ∀ d : Nat, tsGroup d =
      List.replicate (d % 3 + 1)
        (ENHANCED_INVISIBLE_CHARS.getD (d % ENHANCED_INVISIBLE_CHARS.length)
          '\u200B') ++ ['\u200C'] :=
  timestamp_encoder_characterization 1747000000 (by norm_num)

/-- **C7**: Free-Span Embedder characterization: every input character is
retained in order with at most two general-alphabet codepoints appended
after it; the insertion rate is 0.6 for `/ . : -`, else 0.3 for ASCII
vowels, else 0.4 (including digits); on a firing draw exactly
`randint(1,2)` codepoints follow the character, otherwise none. -/
theorem free_span_embedder_characterization :
    (∀ (t : List Char) (g : RNG),
      FreeEmbeds t (add_invisible_chars_to_segment t g).1) ∧
    (∀ c : Char, (c = '/' ∨ c = '.' ∨ c = ':' ∨ c = '-') →
      insertionRate c = 6/10) ∧
    (∀ c : Char, ¬ (c = '/' ∨ c = '.' ∨ c = ':' ∨ c = '-') →
      (c = 'a' ∨ c = 'e' ∨ c = 'i' ∨ c = 'o' ∨ c = 'u' ∨
       c = 'A' ∨ c = 'E' ∨ c = 'I' ∨ c = 'O' ∨ c = 'U') →
      insertionRate c = 3/10) ∧
    (∀ c : Char, ¬ (c = '/' ∨ c = '.' ∨ c = ':' ∨ c = '-') →
      ¬ (c = 'a' ∨ c = 'e' ∨ c = 'i' ∨ c = 'o' ∨ c = 'u' ∨
         c = 'A' ∨ c = 'E' ∨ c = 'I' ∨ c = 'O' ∨ c = 'U') →
      insertionRate c = 4/10) ∧
    (∀ (c : Char) (g : RNG),
      (add_invisible_chars_to_segment [c] g).1.length =
        if (nextFloat g).1 < insertionRate c
        then 2 + g.nats g.ni % 2
        else 1) := by
  refine ⟨freeEmbeds_segment, ?_, ?_, ?_, ?_⟩
  · intro c hc
    unfold insertionRate
    rw [if_pos (by simpa using hc)]
  · intro c hc1 hc2
    unfold insertionRate
    rw [if_neg (by simpa using hc1), if_pos (by simpa using hc2)]
  · intro c hc1 hc2
    unfold insertionRate
    rw [if_neg (by simpa using hc1), if_neg (by simpa using hc2)]
    by_cases hd : c.isDigit
    · rw [if_pos hd]
    · rw [if_neg hd]
  · intro c g
    unfold add_invisible_chars_to_segment
    by_cases hf : (nextFloat g).1 < insertionRate c
    · rw [if_pos hf, if_pos hf]
      have h0 : ∀ g' : RNG,
          (add_invisible_chars_to_segment ([] : List Char) g').1 = [] :=
        fun _ => rfl
      simp only [List.length_cons, List.length_append, choices_length, h0,
        List.length_nil, randint, nextNat, nextFloat]
      omega
    · rw [if_neg hf, if_neg hf]
      rfl

/-- **C8**: the two legacy entry points return their first argument
unchanged for every input (identity functions). -/
theorem legacy_noops :
    (∀ (content : List Char) (w : Option (List Char)) (n : Option Nat),
      insert_watermark content w n = content) ∧
    (∀ content : List Char, apply_watermark_to_chapter content = content) :=
  ⟨fun _ _ _ => rfl, fun _ => rfl⟩

/-- **C9 is false on the code**: with a random source whose draws are all
zero, `0 < 0.3` holds so every insertion fires:
`add_invisible_chars_to_text` on `"abc"` returns
`"a\u200Bb\u200Bc\u200B"`, not `"abc"` unchanged. -/
theorem legacy_insert_counterexample :
    (add_invisible_chars_to_text (3/10) ['a', 'b', 'c']
      (RNG.mk (fun _ => 0) (fun _ => 0) 0 0)).1 =
      ['a', '\u200B', 'b', '\u200B', 'c', '\u200B'] ∧
    (add_invisible_chars_to_text (3/10) ['a', 'b', 'c']
      (RNG.mk (fun _ => 0) (fun _ => 0) 0 0)).1 ≠ ['a', 'b', 'c'] := by
  have h03 : ((0 : ℚ) < 3/10) := by norm_num
  have hval : (add_invisible_chars_to_text (3/10) ['a', 'b', 'c']
      (RNG.mk (fun _ => 0) (fun _ => 0) 0 0)).1 =
      ['a', '\u200B', 'b', '\u200B', 'c', '\u200B'] := by
    simp only [add_invisible_chars_to_text, nextFloat, nextNat, choice]
    rw [if_pos h03, if_pos h03, if_pos h03]
    simp [INVISIBLE_CHARS]
  exact ⟨hval, by rw [hval]; decide⟩

theorem legacy_insert_all_ge (rate : ℚ) :
    ∀ (t : List Char) (g : RNG), (∀ i : Nat, rate ≤ g.floats i) →
      (add_invisible_chars_to_text rate t g).1 = t := by
  intro t
  induction t with
  | nil => intro g _; rfl
  | cons c rest ih =>
    intro g hg
    simp only [add_invisible_chars_to_text]
    have hno : ¬ ((nextFloat g).1 < rate) := not_lt.2 (hg g.fi)
    rw [if_neg hno]
    show c :: (add_invisible_chars_to_text rate rest (nextFloat g).2).1 =
      c :: rest
    rw [ih (nextFloat g).2 hg]

/-- **C9 (amended)**: `add_invisible_chars_to_text` on `"abc"` returns
`"abc"` unchanged when every float draw is at least the insertion rate
(no insertion fires); a forced-zero source instead fires every
insertion, since firing is decided by `draw < rate`. -/
theorem legacy_insert_no_fire (g : RNG)
    (h : ∀ i : Nat, 3/10 ≤ g.floats i) :
    (add_invisible_chars_to_text (3/10) ['a', 'b', 'c'] g).1 =
      ['a', 'b', 'c'] :=
  legacy_insert_all_ge (3/10) ['a', 'b', 'c'] g h

/-- Witness for the amended C9: a source drawing the constant 9/10. -/
theorem legacy_insert_no_fire_witness :
    (∀ i : Nat, (3 : ℚ)/10 ≤
      (RNG.mk (fun _ => (9 : ℚ)/10) (fun _ => 0) 0 0).floats i) ∧
    (add_invisible_chars_to_text (3/10) ['a', 'b', 'c']
      (RNG.mk (fun _ => (9 : ℚ)/10) (fun _ => 0) 0 0)).1 =
      ['a', 'b', 'c'] :=
  ⟨fun _ => by norm_num,
   legacy_insert_no_fire (RNG.mk (fun _ => (9 : ℚ)/10) (fun _ => 0) 0 0)
     (fun _ => by norm_num)⟩

/-- **C10**: in the default pipeline every URL span is copied into the
output byte-identical, with insertions confined to free spans: the
output of `add_enhanced_invisible_chars` is the concatenation of
per-span pieces where each url span's piece is the span itself and each
free span's piece arises from the Free-Span Embedder. -/
theorem url_spans_verbatim (s : List Char) (g : RNG) :
    ∃ ps : List (List Char),
      List.Forall₂ SpanEmbeds (segmentText s) ps ∧
      (add_enhanced_invisible_chars s g).1 = ps.flatten := by
  have main : ∀ (spans : List Span) (g : RNG),
      ∃ ps, List.Forall₂ SpanEmbeds spans ps ∧
        (embedSpans spans g).1 = ps.flatten := by
    intro spans
    induction spans with
    | nil => exact fun g => ⟨[], List.Forall₂.nil, rfl⟩
    | cons sp rest ih =>
      intro g
      cases sp with
      | free t =>
        obtain ⟨ps, h1, h2⟩ := ih (add_invisible_chars_to_segment t g).2
        exact ⟨(add_invisible_chars_to_segment t g).1 :: ps,
          List.Forall₂.cons (SpanEmbeds.free t _ (freeEmbeds_segment t g)) h1,
          by simp [embedSpans, h2]⟩
      | url m =>
        obtain ⟨ps, h1, h2⟩ := ih g
        exact ⟨m :: ps, List.Forall₂.cons (SpanEmbeds.url m) h1,
          by simp [embedSpans, h2]⟩
  exact main (segmentText s) g

/-- Witness for C3 at concrete inputs. -/
theorem protect_layering_witness :
    ∃ f₁ f₂ : List Char,
      (apply_multi_layer_protection ['h', 'i'] ['5'] 1700000000
        (RNG.mk (fun _ => 0) (fun _ => 0) 0 0)).1 =
        embed_content_fingerprint ['5'] ++ add_timestamp_watermark 1700000000 ++
          f₁ ++ (add_enhanced_invisible_chars ['h', 'i']
            (RNG.mk (fun _ => 0) (fun _ => 0) 0 0)).1 ++ f₂ ∧
      2 ≤ f₁.length ∧ f₁.length ≤ 5 ∧
      (∀ c ∈ f₁, c ∈ ENHANCED_INVISIBLE_CHARS) ∧
      2 ≤ f₂.length ∧ f₂.length ≤ 5 ∧
      (∀ c ∈ f₂, c ∈ ENHANCED_INVISIBLE_CHARS) :=
  protect_layering ['h', 'i'] ['5'] 1700000000
    (RNG.mk (fun _ => 0) (fun _ => 0) 0 0)

/-- Witness for C7 at concrete characters and a concrete random stream. -/
theorem free_span_embedder_characterization_witness :
    insertionRate '/' = 6/10 ∧ insertionRate 'e' = 3/10 ∧
    insertionRate 'x' = 4/10 ∧ insertionRate '7' = 4/10 ∧
    FreeEmbeds ['x', 'y'] ((add_invisible_chars_to_segment ['x', 'y']
      (RNG.mk (fun _ => 0) (fun _ => 0) 0 0)).1) :=
  ⟨free_span_embedder_characterization.2.1 '/' (by decide),
   free_span_embedder_characterization.2.2.1 'e' (by decide) (by decide),
   free_span_embedder_characterization.2.2.2.1 'x' (by decide) (by decide),
   free_span_embedder_characterization.2.2.2.1 '7' (by decide) (by decide),
   free_span_embedder_characterization.1 ['x', 'y']
     (RNG.mk (fun _ => 0) (fun _ => 0) 0 0)⟩

end Watermark
